import Mathlib

/-!
# Verification of the tradebot core against its specification

Shallow embedding of the fill-reconciliation ledger, the crossover signal
state machine, the Quartermaster exit overlay and the maker order pricing
helpers of the tradebot repository (`bot/tradebot.py`, `bot/orders.py`),
with theorems settling the specification claims about them.

Real-valued quantities (prices, sizes, fees, P&L) are modelled as `ℚ`.
-/

namespace Tradebot

/-! ## Fill reconciliation ledger (`TradeBot.reconcile_recent_fills`)

A fill record, after the numeric fields have been parsed.  In the source a
fill is a dict; `trade_id` stands for the resolved fallback chain
`trade_id or fill_id or sequence or trade_time`, `size` for
`size or base_size or filled_size`, and `side` for `side or order_side`
upper-cased, exactly as both `_fill_fingerprint` and the ledger mutation
code resolve them. -/
structure Fill where
  order_id : String
  trade_id : String
  product_id : String
  size : ℚ
  price : ℚ
  fee : ℚ
  side : String
  deriving DecidableEq, Repr

/-- The dedup key of `TradeBot._fill_fingerprint`: the tuple
`orderId|tradeId|instrument|size|price|fee|side` (the source joins the raw
fields into a string; we keep the components, which preserves exactly the
equality test the dedup index performs). -/
structure Fingerprint where
  oid : String
  tid : String
  pid : String
  sz : ℚ
  px : ℚ
  fee : ℚ
  side : String
  deriving DecidableEq, Repr

def fingerprint (f : Fill) : Fingerprint :=
  ⟨f.order_id, f.trade_id, f.product_id, f.size, f.price, f.fee, f.side⟩

/-- Point update of a total map with default-carrying semantics
(`defaultdict(float)` in the source). -/
def upd (m : String → ℚ) (k : String) (v : ℚ) : String → ℚ :=
  fun x => if x = k then v else m x

def updOpt (m : String → Option ℚ) (k : String) (v : Option ℚ) : String → Option ℚ :=
  fun x => if x = k then v else m x

/-- Ledger state: `self.positions`, `self.cost_basis`, `self.realized_pnl`,
`self._entry_time` and the processed-fill index `self._processed_fills`
(a fingerprint-keyed dict; only membership matters, so a list of
fingerprints). -/
structure LedgerState where
  positions : String → ℚ
  cost_basis : String → ℚ
  realized_pnl : ℚ
  entry_time : String → Option ℚ
  processed : List Fingerprint

/-- Fresh ledger: `defaultdict(float)` positions and cost basis, zero
realized P&L, no entry times, empty processed-fill index. -/
def initLedger : LedgerState :=
  { positions := fun _ => 0
    cost_basis := fun _ => 0
    realized_pnl := 0
    entry_time := fun _ => none
    processed := [] }

/-- BUY branch of `reconcile_recent_fills` (tradebot.py:1862-1870):
`new_qty = qty_before + size`; `new_cost = cost_basis*qty_before +
size*price + fee`; both updated only when `new_qty > 0`; entry time marked
when the position transitions flat → long. -/
def applyBuy (now : ℚ) (st : LedgerState) (pid : String) (size price fee : ℚ) :
    LedgerState :=
  let qty_before := st.positions pid
  let new_qty := qty_before + size
  let new_cost := st.cost_basis pid * qty_before + size * price + fee
  let st1 :=
    if 0 < new_qty then
      { st with positions := upd st.positions pid new_qty
                cost_basis := upd st.cost_basis pid (new_cost / new_qty) }
    else st
  if qty_before ≤ 0 ∧ 0 < new_qty then
    { st1 with entry_time := updOpt st1.entry_time pid (some now) }
  else st1

/-- SELL branch of `reconcile_recent_fills` (tradebot.py:1871-1878) together
with the hold-time bookkeeping of the CSV section (tradebot.py:1900-1902):
`sell_qty = min(size, qty_before)`; realized P&L grows by
`sell_qty*(price - cost_basis) - fee`; the position becomes
`max(0, qty_before - sell_qty)` and the cost basis is reset to 0 when it
reaches 0, in which case any recorded entry time is cleared. -/
def applySell (st : LedgerState) (pid : String) (size price fee : ℚ) :
    LedgerState :=
  let qty_before := st.positions pid
  let sell_qty := min size qty_before
  let new_pos := max 0 (qty_before - sell_qty)
  let st1 :=
    { st with realized_pnl := st.realized_pnl + (sell_qty * (price - st.cost_basis pid) - fee)
              positions := upd st.positions pid new_pos }
  let st2 :=
    if new_pos = 0 then { st1 with cost_basis := upd st1.cost_basis pid 0 } else st1
  if new_pos = 0 ∧ (st2.entry_time pid).isSome then
    { st2 with entry_time := updOpt st2.entry_time pid none }
  else st2

/-- Mutation performed by one non-duplicate fill: fills with an empty
product id or a side other than BUY/SELL are skipped (tradebot.py:1843-1846),
otherwise the BUY or SELL branch runs. -/
def applyFill (now : ℚ) (st : LedgerState) (f : Fill) : LedgerState :=
  if f.product_id = "" ∨ (f.side ≠ "BUY" ∧ f.side ≠ "SELL") then st
  else if f.side = "BUY" then applyBuy now st f.product_id f.size f.price f.fee
  else applySell st f.product_id f.size f.price f.fee

/-- One iteration of the reconcile loop (tradebot.py:1836-1880): a fill
whose fingerprint is already in the processed index is skipped entirely;
otherwise its mutation is applied and its fingerprint recorded (the source
records a fingerprint on the skip-branches too). -/
def processFill (now : ℚ) (st : LedgerState) (f : Fill) : LedgerState :=
  if fingerprint f ∈ st.processed then st
  else { applyFill now st f with processed := fingerprint f :: st.processed }

/-- The reconcile loop over a (window-filtered, sorted) fill list. -/
def processFills (now : ℚ) (st : LedgerState) (fs : List Fill) : LedgerState :=
  fs.foldl (processFill now) st

theorem processFill_processed (now : ℚ) (st : LedgerState) (f : Fill) :
    (processFill now st f).processed =
      if fingerprint f ∈ st.processed then st.processed
      else fingerprint f :: st.processed := by
  unfold processFill
  split_ifs <;> rfl

theorem mem_processed_processFill {x : Fingerprint} (now : ℚ) (st : LedgerState)
    (f : Fill) (h : x ∈ st.processed) : x ∈ (processFill now st f).processed := by
  rw [processFill_processed]
  split_ifs
  · exact h
  · exact List.mem_cons_of_mem _ h

theorem self_mem_processed_processFill (now : ℚ) (st : LedgerState) (f : Fill) :
    fingerprint f ∈ (processFill now st f).processed := by
  rw [processFill_processed]
  split_ifs with h
  · exact h
  · exact List.mem_cons_self _ _

theorem mem_processed_processFills {x : Fingerprint} (now : ℚ) (st : LedgerState)
    (fs : List Fill) (h : x ∈ st.processed) :
    x ∈ (processFills now st fs).processed := by
  induction fs generalizing st with
  | nil => exact h
  | cons g gs ih =>
      exact ih (processFill now st g) (mem_processed_processFill now st g h)

theorem all_mem_processed_processFills (now : ℚ) (st : LedgerState)
    (fs : List Fill) :
    ∀ f ∈ fs, fingerprint f ∈ (processFills now st fs).processed := by
  induction fs generalizing st with
  | nil => intro f hf; cases hf
  | cons g gs ih =>
      intro f hf
      rcases List.mem_cons.mp hf with rfl | hf
      · exact mem_processed_processFills now _ gs
          (self_mem_processed_processFill now st f)
      · exact ih (processFill now st g) f hf

theorem processFills_of_all_processed (now : ℚ) (st : LedgerState)
    (fs : List Fill) (h : ∀ f ∈ fs, fingerprint f ∈ st.processed) :
    processFills now st fs = st := by
  induction fs with
  | nil => rfl
  | cons g gs ih =>
      have hg : processFill now st g = st := by
        unfold processFill
        rw [if_pos (h g (List.mem_cons_self _ _))]
      show processFills now (processFill now st g) gs = st
      rw [hg]
      exact ih fun f hf => h f (List.mem_cons_of_mem _ hf)

/-- C1: replaying a fill list through the reconciliation ledger is
idempotent: every fill of an already-processed list has its fingerprint in
the processed-fill index, so a second (or any later) replay skips every
fill and leaves positions, cost basis, realized P&L — indeed the whole
ledger state — unchanged. -/
theorem claim_C1_replay_idempotent (now now' : ℚ) (st : LedgerState)
    (fs : List Fill) :
    processFills now' (processFills now st fs) fs = processFills now st fs :=
  processFills_of_all_processed now' _ fs
    (all_mem_processed_processFills now st fs)

theorem applyBuy_spec (now : ℚ) (st : LedgerState) (pid : String)
    (size price fee : ℚ) (hsize : 0 < size) (hqty : 0 ≤ st.positions pid) :
    (applyBuy now st pid size price fee).positions pid = st.positions pid + size ∧
    (applyBuy now st pid size price fee).cost_basis pid
        = (st.cost_basis pid * st.positions pid + size * price + fee)
            / (st.positions pid + size) ∧
    (applyBuy now st pid size price fee).realized_pnl = st.realized_pnl ∧
    (applyBuy now st pid size price fee).entry_time pid
        = (if st.positions pid = 0 then some now else st.entry_time pid) := by
  have hpos : 0 < st.positions pid + size := by linarith
  unfold applyBuy
  simp only [if_pos hpos]
  by_cases h0 : st.positions pid = 0
  · rw [if_pos ⟨le_of_eq h0, hpos⟩, if_pos h0]
    refine ⟨by simp [upd], by simp [upd], rfl, by simp [updOpt]⟩
  · have hne : ¬(st.positions pid ≤ 0 ∧ 0 < st.positions pid + size) := by
      rintro ⟨hle, -⟩
      exact h0 (le_antisymm hle hqty)
    rw [if_neg hne, if_neg h0]
    exact ⟨by simp [upd], by simp [upd], rfl, rfl⟩

theorem applySell_spec (st : LedgerState) (pid : String) (size price fee : ℚ) :
    (applySell st pid size price fee).realized_pnl
        = st.realized_pnl
          + (min size (st.positions pid) * (price - st.cost_basis pid) - fee) ∧
    (applySell st pid size price fee).positions pid
        = st.positions pid - min size (st.positions pid) ∧
    (applySell st pid size price fee).cost_basis pid
        = (if st.positions pid - min size (st.positions pid) = 0
           then 0 else st.cost_basis pid) := by
  have hmax : max 0 (st.positions pid - min size (st.positions pid))
      = st.positions pid - min size (st.positions pid) :=
    max_eq_right (by simp [sub_nonneg])
  unfold applySell
  simp only [hmax]
  by_cases h0 : st.positions pid - min size (st.positions pid) = 0
  · rw [if_pos h0]
    by_cases he : (st.entry_time pid).isSome
    · rw [if_pos ⟨h0, he⟩]
      exact ⟨rfl, by simp [upd], by simp [upd, h0]⟩
    · rw [if_neg (by simp [he])]
      exact ⟨rfl, by simp [upd], by simp [upd, h0]⟩
  · rw [if_neg h0, if_neg (by simp [h0]), if_neg h0]
    exact ⟨rfl, by simp [upd], by simp [upd]⟩

theorem processFill_of_not_mem (now : ℚ) (st : LedgerState) (f : Fill)
    (h : fingerprint f ∉ st.processed) :
    processFill now st f
      = { applyFill now st f with processed := fingerprint f :: st.processed } := by
  unfold processFill
  rw [if_neg h]

theorem applyFill_buy (now : ℚ) (st : LedgerState) (f : Fill)
    (hpid : f.product_id ≠ "") (hside : f.side = "BUY") :
    applyFill now st f = applyBuy now st f.product_id f.size f.price f.fee := by
  unfold applyFill
  rw [if_neg (by simp [hpid, hside]), if_pos hside]

theorem applyFill_sell (now : ℚ) (st : LedgerState) (f : Fill)
    (hpid : f.product_id ≠ "") (hside : f.side = "SELL") :
    applyFill now st f = applySell st f.product_id f.size f.price f.fee := by
  unfold applyFill
  rw [if_neg (by simp [hpid, hside]), if_neg (by rw [hside]; decide)]

/-- C2: processing a BUY fill with positive size on a position with
quantity `qty ≥ 0` and cost basis `cb` yields `newQty = qty + size`,
`newCost = (cb*qty + size*price + fee)/newQty`, leaves realized P&L
untouched, and sets the entry time exactly when the quantity transitions
from 0 to positive. -/
theorem claim_C2_buy_update (now : ℚ) (st : LedgerState) (f : Fill)
    (hside : f.side = "BUY") (hpid : f.product_id ≠ "")
    (hnew : fingerprint f ∉ st.processed)
    (hsize : 0 < f.size) (hqty : 0 ≤ st.positions f.product_id) :
    (processFill now st f).positions f.product_id
        = st.positions f.product_id + f.size ∧
    (processFill now st f).cost_basis f.product_id
        = (st.cost_basis f.product_id * st.positions f.product_id
            + f.size * f.price + f.fee) / (st.positions f.product_id + f.size) ∧
    (processFill now st f).realized_pnl = st.realized_pnl ∧
    (processFill now st f).entry_time f.product_id
        = (if st.positions f.product_id = 0 then some now
           else st.entry_time f.product_id) := by
  rw [processFill_of_not_mem now st f hnew, applyFill_buy now st f hpid hside]
  exact applyBuy_spec now st f.product_id f.size f.price f.fee hsize hqty

/-- Concrete instance of C2 (spec Scenario B): a BUY fill `size=1,
price=100, fee=1` on the empty ledger. -/
def fillB : Fill := ⟨"o1", "t1", "ETH-USD", 1, 100, 1, "BUY"⟩

theorem claim_C2_buy_update_witness :
    (processFill 0 initLedger fillB).positions "ETH-USD" = 1 ∧
    (processFill 0 initLedger fillB).cost_basis "ETH-USD" = 101 ∧
    (processFill 0 initLedger fillB).realized_pnl = 0 ∧
    (processFill 0 initLedger fillB).entry_time "ETH-USD" = some 0 := by
  have h := claim_C2_buy_update 0 initLedger fillB rfl (by decide)
    (by simp [initLedger]) (by norm_num [fillB]) (by norm_num [initLedger])
  simp only [show fillB.product_id = "ETH-USD" from rfl,
    show fillB.size = 1 from rfl, show fillB.price = 100 from rfl,
    show fillB.fee = 1 from rfl,
    show initLedger.positions "ETH-USD" = 0 from rfl,
    show initLedger.cost_basis "ETH-USD" = 0 from rfl,
    show initLedger.realized_pnl = 0 from rfl] at h
  norm_num at h
  exact h

/-- C3: processing a SELL fill against a position with quantity `qty` and
cost basis `cb` clamps the sold quantity to `sellQty = min(size, qty)`,
adds exactly `sellQty*(price - cb) - fee` to realized P&L, leaves
`qty - sellQty` behind, and resets the cost basis to 0 exactly when the
remaining quantity is 0. -/
theorem claim_C3_sell_update (now : ℚ) (st : LedgerState) (f : Fill)
    (hside : f.side = "SELL") (hpid : f.product_id ≠ "")
    (hnew : fingerprint f ∉ st.processed) :
    (processFill now st f).realized_pnl
        = st.realized_pnl
          + (min f.size (st.positions f.product_id)
              * (f.price - st.cost_basis f.product_id) - f.fee) ∧
    (processFill now st f).positions f.product_id
        = st.positions f.product_id - min f.size (st.positions f.product_id) ∧
    (processFill now st f).cost_basis f.product_id
        = (if st.positions f.product_id - min f.size (st.positions f.product_id) = 0
           then 0 else st.cost_basis f.product_id) := by
  rw [processFill_of_not_mem now st f hnew, applyFill_sell now st f hpid hside]
  exact applySell_spec st f.product_id f.size f.price f.fee

/-- Concrete instance of C3 (spec Scenario C): after the Scenario-B BUY, a
SELL fill `size=1, price=110, fee=1`. -/
def fillS : Fill := ⟨"o2", "t2", "ETH-USD", 1, 110, 1, "SELL"⟩

theorem claim_C3_sell_update_witness :
    (processFill 0 (processFill 0 initLedger fillB) fillS).realized_pnl
        = (processFill 0 initLedger fillB).realized_pnl + 8 ∧
    (processFill 0 (processFill 0 initLedger fillB) fillS).positions "ETH-USD" = 0 ∧
    (processFill 0 (processFill 0 initLedger fillB) fillS).cost_basis "ETH-USD" = 0 := by
  have hs : ("ETH-USD" = "") = False := eq_false (by decide)
  have hq : (processFill 0 initLedger fillB).positions "ETH-USD" = 1 := by
    norm_num [processFill, applyFill, applyBuy, initLedger, fillB, fingerprint, upd, updOpt, hs]
  have hc : (processFill 0 initLedger fillB).cost_basis "ETH-USD" = 101 := by
    norm_num [processFill, applyFill, applyBuy, initLedger, fillB, fingerprint, upd, updOpt, hs]
  have hproc : (processFill 0 initLedger fillB).processed = [fingerprint fillB] := rfl
  have hnew3 : fingerprint fillS ∉ (processFill 0 initLedger fillB).processed := by
    rw [hproc]
    decide
  have h := claim_C3_sell_update 0 (processFill 0 initLedger fillB) fillS rfl
    (by decide) hnew3
  simp only [show fillS.product_id = "ETH-USD" from rfl,
    show fillS.size = 1 from rfl, show fillS.price = 110 from rfl,
    show fillS.fee = 1 from rfl] at h
  rw [hq, hc] at h
  norm_num [min_self] at h
  exact h

/-- The position-state invariant of the spec's data model: quantity is
never negative, and the cost basis is 0 whenever the quantity is 0. -/
def LedgerInvariant (st : LedgerState) : Prop :=
  ∀ pid, 0 ≤ st.positions pid ∧ (st.positions pid = 0 → st.cost_basis pid = 0)

theorem applyBuy_positions (now : ℚ) (st : LedgerState) (pid : String)
    (size price fee : ℚ) :
    (applyBuy now st pid size price fee).positions
      = (if 0 < st.positions pid + size
         then upd st.positions pid (st.positions pid + size) else st.positions) := by
  unfold applyBuy
  dsimp only
  split_ifs <;> rfl

theorem applyBuy_cost_basis (now : ℚ) (st : LedgerState) (pid : String)
    (size price fee : ℚ) :
    (applyBuy now st pid size price fee).cost_basis
      = (if 0 < st.positions pid + size
         then upd st.cost_basis pid
           ((st.cost_basis pid * st.positions pid + size * price + fee)
             / (st.positions pid + size))
         else st.cost_basis) := by
  unfold applyBuy
  dsimp only
  split_ifs <;> rfl

theorem applySell_positions (st : LedgerState) (pid : String)
    (size price fee : ℚ) :
    (applySell st pid size price fee).positions
      = upd st.positions pid
          (max 0 (st.positions pid - min size (st.positions pid))) := by
  unfold applySell
  dsimp only
  split_ifs <;> rfl

theorem applySell_cost_basis (st : LedgerState) (pid : String)
    (size price fee : ℚ) :
    (applySell st pid size price fee).cost_basis
      = (if max 0 (st.positions pid - min size (st.positions pid)) = 0
         then upd st.cost_basis pid 0 else st.cost_basis) := by
  unfold applySell
  dsimp only
  split_ifs <;> rfl

theorem applyBuy_invariant (now : ℚ) (st : LedgerState) (pid : String)
    (size price fee : ℚ) (h : LedgerInvariant st) :
    LedgerInvariant (applyBuy now st pid size price fee) := by
  intro x
  rw [applyBuy_positions, applyBuy_cost_basis]
  by_cases hpos : 0 < st.positions pid + size
  · simp only [if_pos hpos]
    by_cases hx : x = pid
    · subst hx
      refine ⟨by simp [upd]; linarith, ?_⟩
      intro h0
      simp [upd] at h0
      exact absurd h0 (ne_of_gt hpos)
    · simpa [upd, hx] using h x
  · simp only [if_neg hpos]
    exact h x

theorem applySell_invariant (st : LedgerState) (pid : String)
    (size price fee : ℚ) (h : LedgerInvariant st) :
    LedgerInvariant (applySell st pid size price fee) := by
  intro x
  rw [applySell_positions, applySell_cost_basis]
  by_cases h0 : max 0 (st.positions pid - min size (st.positions pid)) = 0
  · simp only [if_pos h0]
    by_cases hx : x = pid
    · subst hx
      exact ⟨by simp [upd, h0], fun _ => by simp [upd]⟩
    · simpa [upd, hx] using h x
  · simp only [if_neg h0]
    by_cases hx : x = pid
    · subst hx
      refine ⟨by simp [upd], ?_⟩
      intro hz
      rw [show upd st.positions x (max 0 (st.positions x - min size (st.positions x))) x
            = max 0 (st.positions x - min size (st.positions x)) from if_pos rfl] at hz
      exact absurd hz h0
    · simpa [upd, hx] using h x

theorem applyFill_invariant (now : ℚ) (st : LedgerState) (f : Fill)
    (h : LedgerInvariant st) : LedgerInvariant (applyFill now st f) := by
  unfold applyFill
  split_ifs
  · exact h
  · exact applyBuy_invariant now st f.product_id f.size f.price f.fee h
  · exact applySell_invariant st f.product_id f.size f.price f.fee h

theorem processFill_invariant (now : ℚ) (st : LedgerState) (f : Fill)
    (h : LedgerInvariant st) : LedgerInvariant (processFill now st f) := by
  unfold processFill
  split_ifs
  · exact h
  · exact applyFill_invariant now st f h

/-- C4: the invariant "quantity ≥ 0, and cost basis is 0 whenever the
quantity is 0" holds for the fresh ledger and is preserved by every
reconciliation step, in particular over any fill sequence with
non-negative sizes, prices and fees. -/
theorem claim_C4_position_invariant :
    LedgerInvariant initLedger ∧
    ∀ (now : ℚ) (st : LedgerState) (fs : List Fill),
      (∀ f ∈ fs, 0 ≤ f.size ∧ 0 ≤ f.price ∧ 0 ≤ f.fee) →
      LedgerInvariant st → LedgerInvariant (processFills now st fs) := by
  constructor
  · intro pid
    exact ⟨le_refl 0, fun _ => rfl⟩
  · intro now st fs hall h
    induction fs generalizing st with
    | nil => exact h
    | cons g gs ih =>
        exact ih (processFill now st g)
          (fun f hf => hall f (List.mem_cons_of_mem _ hf))
          (processFill_invariant now st g h)

theorem claim_C4_position_invariant_witness :
    LedgerInvariant (processFills 0 initLedger [fillB, fillS]) := by
  refine claim_C4_position_invariant.2 0 initLedger [fillB, fillS] ?_
    claim_C4_position_invariant.1
  rintro f hf
  rcases List.mem_cons.mp hf with rfl | hf2
  · exact ⟨by norm_num [fillB], by norm_num [fillB], by norm_num [fillB]⟩
  · rcases List.mem_cons.mp hf2 with rfl | h3
    · exact ⟨by norm_num [fillS], by norm_num [fillS], by norm_num [fillS]⟩
    · cases h3

/-! ## Crossover signal state machine (`TradeBot.evaluate_signal`)

Per-instrument confirmation state: membership in `self._primed`, the
last-confirmed direction `self._trend[coin_id]` and the pending record
`self._pending[coin_id] = {"rel": r, "count": n, "band_grace": g}`. -/
structure SignalState where
  primed : Bool
  trend : Int
  pending_rel : Int
  pending_count : Nat
  band_grace : Nat
  deriving DecidableEq, Repr

/-- Relative EMA position with dead-band (tradebot.py:1201-1208):
`+1` if `s > l*(1+eps)`, `-1` if `s < l*(1-eps)`, else `0`. -/
def relOf (s l eps : ℚ) : Int :=
  if l * (1 + eps) < s then 1
  else if s < l * (1 - eps) then -1
  else 0

/-- One `evaluate_signal` confirmation step (tradebot.py:1210-1256) on the
per-instrument state, given the relative reading `rel` for the closed
candle.  `localMode` is `self.candle_mode == "local"`; `need` is
`max(1, confirm_candles)`.  The returned `Option Int` is the confirmed
crossover signal (`+1` BUY, `-1` SELL) handed to the downstream gates,
`none` when no signal fires this candle. -/
def stepSignal (localMode : Bool) (need : Nat) (st : SignalState) (rel : Int) :
    SignalState × Option Int :=
  if st.primed = false then
    ({ st with primed := true, trend := rel }, none)
  else if rel = 0 then
    (if localMode = true ∧ st.pending_rel ≠ 0 ∧ st.band_grace = 0 then
       { st with band_grace := 1 }
     else
       { st with pending_rel := 0, pending_count := 0, band_grace := 0 }, none)
  else
    let st1 :=
      if st.pending_rel ≠ rel then
        { st with pending_rel := rel, pending_count := 1, band_grace := 0 }
      else
        { st with pending_count := st.pending_count + 1, band_grace := 0 }
    let st2 := { st1 with pending_count := min st1.pending_count 32 }
    if st2.pending_count < need then (st2, none)
    else
      let st3 := { st2 with pending_rel := 0, pending_count := 0, band_grace := 0 }
      if rel = st.trend then (st3, none)
      else ({ st3 with trend := rel }, some rel)

/-- Folding `stepSignal` over a list of readings, collecting fired signals. -/
def runSignal (localMode : Bool) (need : Nat) (st : SignalState) :
    List Int → SignalState × List Int
  | [] => (st, [])
  | r :: rs =>
      let p := stepSignal localMode need st r
      let q := runSignal localMode need p.1 rs
      (q.1, p.2.toList ++ q.2)

/-- C6 as stated fails on the code: the relative-position classification
with `s = l` is `AboveBand`, not `InBand`, whenever the common value is
negative, because `s > l*(1+eps)` reduces to `0 > l*eps`.  Concrete
counterexample: `s = l = -1`, `eps = 1/10`. -/
theorem claim_C6_counterexample :
    (-1 : ℚ) = -1 ∧ (0 : ℚ) < 1/10 ∧ relOf (-1) (-1) (1/10) = 1 := by
  refine ⟨rfl, by norm_num, ?_⟩
  norm_num [relOf]

/-- C6 (amended): the classification is `AboveBand` exactly when
`s > l*(1+eps)`, `BelowBand` exactly when `s < l*(1-eps)` and `InBand`
otherwise; and for every pair with `s = l` and the long EMA non-negative,
every `eps > 0` yields `InBand` (the original claim omitted the
non-negativity condition, without which `s = l < 0` is `AboveBand`). -/
theorem claim_C6_deadband_amended (s l eps : ℚ) :
    (relOf s l eps = 1 ↔ l * (1 + eps) < s) ∧
    (relOf s l eps = -1 ↔ ¬l * (1 + eps) < s ∧ s < l * (1 - eps)) ∧
    (relOf s l eps = 0 ↔ ¬l * (1 + eps) < s ∧ ¬s < l * (1 - eps)) ∧
    (0 ≤ l → s = l → 0 < eps → relOf s l eps = 0) := by
  refine ⟨?_, ?_, ?_, ?_⟩
  · unfold relOf
    split_ifs with h1 h2
    · simp [h1]
    · simp [h1, h2]
    · simp [h1, h2]
  · unfold relOf
    split_ifs with h1 h2
    · simp [h1]
    · simp [h1, h2]
    · simp [h1, h2]
  · unfold relOf
    split_ifs with h1 h2
    · simp [h1]
    · simp [h1, h2]
    · simp [h1, h2]
  · rintro hl rfl heps
    have h1 : ¬s * (1 + eps) < s := by nlinarith
    have h2 : ¬s < s * (1 - eps) := by nlinarith
    unfold relOf
    rw [if_neg h1, if_neg h2]

theorem claim_C6_deadband_amended_witness :
    (0 : ℚ) ≤ 5 ∧ (5 : ℚ) = 5 ∧ (0 : ℚ) < 1/10 ∧ relOf 5 5 (1/10) = 0 :=
  ⟨by norm_num, rfl, by norm_num,
    (claim_C6_deadband_amended 5 5 (1/10)).2.2.2 (by norm_num) rfl (by norm_num)⟩

/-- C9: handling of an `InBand` (`rel = 0`) reading on a primed
instrument.  In local-aggregation mode a first neutral reading after a
directional run is tolerated (counter preserved, grace flag consumed);
any other neutral reading — including a second consecutive one — resets
the pending state; in native-stream (`ws`) mode every neutral reading
resets unconditionally. -/
theorem claim_C9_inband_grace (need : Nat) (st : SignalState)
    (hp : st.primed = true) :
    (st.pending_rel ≠ 0 → st.band_grace = 0 →
        stepSignal true need st 0 = ({ st with band_grace := 1 }, none)) ∧
    (st.pending_rel = 0 ∨ st.band_grace ≠ 0 →
        stepSignal true need st 0
          = ({ st with pending_rel := 0, pending_count := 0, band_grace := 0 }, none)) ∧
    (stepSignal false need st 0
        = ({ st with pending_rel := 0, pending_count := 0, band_grace := 0 }, none)) ∧
    (st.pending_rel ≠ 0 → st.band_grace = 0 →
        (stepSignal true need (stepSignal true need st 0).1 0).1
          = { st with pending_rel := 0, pending_count := 0, band_grace := 0 }) := by
  refine ⟨?_, ?_, ?_, ?_⟩
  · intro h1 h2
    simp [stepSignal, hp, h1, h2]
  · intro h
    rcases h with h | h
    · simp [stepSignal, hp, h]
    · simp [stepSignal, hp, h]
  · simp [stepSignal, hp]
  · intro h1 h2
    have hfst : (stepSignal true need st 0).1 = { st with band_grace := 1 } := by
      simp [stepSignal, hp, h1, h2]
    rw [hfst]
    simp [stepSignal, hp]

theorem claim_C9_inband_grace_witness :
    stepSignal true 2 ⟨true, 0, 1, 3, 0⟩ 0 = (⟨true, 0, 1, 3, 1⟩, none) ∧
    stepSignal false 2 ⟨true, 0, 1, 3, 0⟩ 0 = (⟨true, 0, 0, 0, 0⟩, none) ∧
    (stepSignal true 2 (stepSignal true 2 ⟨true, 0, 1, 3, 0⟩ 0).1 0).1
      = ⟨true, 0, 0, 0, 0⟩ := by
  have h := claim_C9_inband_grace 2 ⟨true, 0, 1, 3, 0⟩ rfl
  exact ⟨h.1 (by decide) rfl, h.2.2.1, h.2.2.2 (by decide) rfl⟩

/-- Characterization of a directional (`rel ≠ 0`) step on a primed
instrument: the counter becomes `min((matching ? count : 0) + 1, 32)`; if
it is still below the threshold nothing fires, otherwise the pending
state resets and a signal fires exactly when the direction differs from
the last confirmed trend. -/
theorem stepSignal_dir (m : Bool) (need : Nat) (st : SignalState) (r : Int)
    (hp : st.primed = true) (hr : r ≠ 0) :
    stepSignal m need st r
      = (if min ((if st.pending_rel = r then st.pending_count else 0) + 1) 32 < need then
           if st.pending_rel = r then
             ({ st with pending_count := min ((if st.pending_rel = r then st.pending_count else 0) + 1) 32, band_grace := 0 }, none)
           else
             ({ st with pending_rel := r, pending_count := min ((if st.pending_rel = r then st.pending_count else 0) + 1) 32, band_grace := 0 }, none)
         else if r = st.trend then
           ({ st with pending_rel := 0, pending_count := 0, band_grace := 0 }, none)
         else
           ({ st with trend := r, pending_rel := 0, pending_count := 0, band_grace := 0 }, some r)) := by
  by_cases hm : st.pending_rel = r
  · simp [stepSignal, hp, hr, hm]
  · simp [stepSignal, hp, hr, hm]

theorem runSignal_append (m : Bool) (need : Nat) (st : SignalState)
    (xs ys : List Int) :
    runSignal m need st (xs ++ ys)
      = ((runSignal m need (runSignal m need st xs).1 ys).1,
         (runSignal m need st xs).2
           ++ (runSignal m need (runSignal m need st xs).1 ys).2) := by
  induction xs generalizing st with
  | nil => simp [runSignal]
  | cons x xs ih =>
      simp [runSignal, ih (stepSignal m need st x).1, List.append_assoc]

theorem stepSignal_above_match (need : Nat) (t : Int) (c : Nat)
    (hlt : min (c + 1) 32 < need) :
    stepSignal false need ⟨true, t, 1, c, 0⟩ 1
      = (⟨true, t, 1, min (c + 1) 32, 0⟩, none) := by
  simp [stepSignal, hlt]

theorem run_above (need : Nat) (t : Int) (j : Nat) :
    ∀ c : Nat, 1 ≤ c → c ≤ 32 → min (c + j) 32 < need →
    runSignal false need ⟨true, t, 1, c, 0⟩ (List.replicate j 1)
      = (⟨true, t, 1, min (c + j) 32, 0⟩, []) := by
  induction j with
  | zero =>
      intro c _ hc32 _
      rw [Nat.add_zero, Nat.min_eq_left hc32]
      simp [runSignal]
  | succ j ih =>
      intro c hc1 hc32 hlt
      have hlt1 : min (c + 1) 32 < need := by omega
      rw [List.replicate_succ]
      simp only [runSignal, stepSignal_above_match need t c hlt1]
      rw [ih (min (c + 1) 32) (by omega) (by omega) (by omega)]
      have hmin : min (min (c + 1) 32 + j) 32 = min (c + (j + 1)) 32 := by omega
      rw [hmin]
      simp

/-- C5: in the confirmation machine a matching directional reading
increments the counter (capped at 32), an opposite or fresh direction
restarts it at 1, a signal fires only when the counter reaches
`confirmCandles` and the direction differs from the last confirmed
direction (and firing resets the pending state and updates the trend),
and consequently `confirmCandles - 1` consecutive `AboveBand` readings
followed by one `BelowBand` fire no signal, leaving the counter restarted
at 1 in the below direction. -/
theorem claim_C5_confirmation (need : Nat) (t : Int) (h2 : 2 ≤ need) :
    (∀ (m : Bool) (st : SignalState) (r : Int), st.primed = true → r ≠ 0 →
        st.pending_rel = r → min (st.pending_count + 1) 32 < need →
        stepSignal m need st r
          = ({ st with pending_count := min (st.pending_count + 1) 32,
                       band_grace := 0 }, none)) ∧
    (∀ (m : Bool) (st : SignalState) (r : Int), st.primed = true → r ≠ 0 →
        st.pending_rel ≠ r →
        stepSignal m need st r
          = ({ st with pending_rel := r, pending_count := 1, band_grace := 0 },
             none)) ∧
    (∀ (m : Bool) (st : SignalState) (r s : Int),
        (stepSignal m need st r).2 = some s →
        s = r ∧ r ≠ st.trend ∧
        need ≤ min ((if st.pending_rel = r then st.pending_count else 0) + 1) 32 ∧
        (stepSignal m need st r).1
          = { st with trend := r, pending_rel := 0, pending_count := 0,
                      band_grace := 0 }) ∧
    runSignal false need ⟨true, t, 0, 0, 0⟩ (List.replicate (need - 1) 1 ++ [-1])
      = (⟨true, t, -1, 1, 0⟩, []) := by
  refine ⟨?_, ?_, ?_, ?_⟩
  · intro m st r hp hr hmatch hlt
    simp [stepSignal, hp, hr, hmatch, hlt]
  · intro m st r hp hr hdiff
    have h1 : (1 : Nat) < need := by omega
    simp [stepSignal, hp, hr, hdiff, h1]
  · intro m st r s hfire
    cases hb : st.primed with
    | false => simp [stepSignal, hb] at hfire
    | true =>
        by_cases h0 : r = 0
        · simp [stepSignal, hb, h0] at hfire
        · rw [stepSignal_dir m need st r hb h0] at hfire
          by_cases hlt : min ((if st.pending_rel = r then st.pending_count else 0) + 1) 32 < need
          · by_cases hm : st.pending_rel = r
            · rw [if_pos hlt, if_pos hm] at hfire
              simp at hfire
            · rw [if_pos hlt, if_neg hm] at hfire
              simp at hfire
          · by_cases htr : r = st.trend
            · rw [if_neg hlt, if_pos htr] at hfire
              simp at hfire
            · rw [if_neg hlt, if_neg htr] at hfire
              simp at hfire
              refine ⟨hfire.symm, htr, ?_, ?_⟩
              · exact Nat.le_of_not_lt hlt
              · rw [stepSignal_dir m need st r hb h0, if_neg hlt, if_neg htr]
                simp [hb]
  · obtain ⟨k, hk⟩ : ∃ k, need - 1 = k + 1 := ⟨need - 2, by omega⟩
    rw [hk, List.replicate_succ, List.cons_append]
    have hstep0 : stepSignal false need ⟨true, t, 0, 0, 0⟩ 1
        = (⟨true, t, 1, 1, 0⟩, none) := by
      have h1 : (1 : Nat) < need := by omega
      simp [stepSignal, h1]
    simp only [runSignal, hstep0]
    rw [runSignal_append]
    rw [run_above need t k 1 (le_refl 1) (by omega) (by omega)]
    have hstep2 : stepSignal false need ⟨true, t, 1, min (1 + k) 32, 0⟩ (-1)
        = (⟨true, t, -1, 1, 0⟩, none) := by
      have h1 : (1 : Nat) < need := by omega
      simp [stepSignal, h1]
    simp [runSignal, hstep2]

theorem claim_C5_confirmation_witness :
    runSignal false 2 ⟨true, 0, 0, 0, 0⟩ (List.replicate (2 - 1) 1 ++ [-1])
      = (⟨true, 0, -1, 1, 0⟩, []) :=
  (claim_C5_confirmation 2 0 (by norm_num)).2.2.2

/-! ## Quartermaster exit overlay (`_profit_bps`, `_quartermaster_exit_ok`) -/

/-- `_profit_bps` (tradebot.py:86-89): `(last/entry - 1) * 10000`, guarded
to 0 when either price is missing/zero (`not x` on a float) or
non-positive; in `ℚ` the guard collapses to `entry ≤ 0 ∨ last ≤ 0`. -/
def profit_bps (entry_price last_price : ℚ) : ℚ :=
  if entry_price ≤ 0 ∨ last_price ≤ 0 then 0
  else (last_price / entry_price - 1) * 10000

/-- Configuration fields read by `_quartermaster_exit_ok` via
`getattr(cfg, …)`. -/
structure QmCfg where
  enable_quartermaster : Bool
  take_profit_bps : ℚ
  quartermaster_respect_macd : Bool
  flat_macd_abs_max : ℚ
  max_hold_hours : ℚ
  stagnation_close_bps : ℚ

/-- `_quartermaster_exit_ok` (tradebot.py:92-118): take-profit fires when
`pbps ≥ take_profit_bps` unless momentum-respect is on and the MACD
histogram is available and `> flat_macd_abs_max`; otherwise stagnation
fires when `hold_hours ≥ max_hold_hours`, `|pbps| < stagnation_close_bps`
and the histogram is unavailable or `|hist| ≤ flat_macd_abs_max`. -/
def quartermaster_exit_ok (cfg : QmCfg) (last_price entry_price hold_hours : ℚ)
    (macd_hist : Option ℚ) : Bool × String :=
  if cfg.enable_quartermaster = false then (false, "")
  else
    let pbps := profit_bps entry_price last_price
    if cfg.take_profit_bps ≤ pbps then
      if cfg.quartermaster_respect_macd = true then
        match macd_hist with
        | some h =>
            if cfg.flat_macd_abs_max < h then (false, "") else (true, "take_profit")
        | none => (true, "take_profit")
      else (true, "take_profit")
    else
      if cfg.max_hold_hours ≤ hold_hours then
        if |pbps| < cfg.stagnation_close_bps then
          match macd_hist with
          | some h =>
              if |h| ≤ cfg.flat_macd_abs_max then (true, "stagnation") else (false, "")
          | none => (true, "stagnation")
        else (false, "")
      else (false, "")

/-- C7: with the overlay enabled, `take_profit` fires exactly when the
profit reaches the take-profit threshold and momentum-respect does not
defer (histogram available and above `flat_macd_abs_max`); `stagnation`
fires exactly when the take-profit threshold is not reached, the hold
time reaches `max_hold_hours`, `|profit| < stagnation_close_bps`, and the
histogram is unavailable or flat. -/
theorem claim_C7_quartermaster (cfg : QmCfg) (last entry hold : ℚ)
    (mh : Option ℚ) (henable : cfg.enable_quartermaster = true) :
    (quartermaster_exit_ok cfg last entry hold mh = (true, "take_profit") ↔
      (cfg.take_profit_bps ≤ profit_bps entry last ∧
        ¬(cfg.quartermaster_respect_macd = true ∧
          ∃ h, mh = some h ∧ cfg.flat_macd_abs_max < h))) ∧
    (quartermaster_exit_ok cfg last entry hold mh = (true, "stagnation") ↔
      (¬cfg.take_profit_bps ≤ profit_bps entry last ∧
        cfg.max_hold_hours ≤ hold ∧
        |profit_bps entry last| < cfg.stagnation_close_bps ∧
        (mh = none ∨ ∃ h, mh = some h ∧ |h| ≤ cfg.flat_macd_abs_max))) := by
  unfold quartermaster_exit_ok
  rw [if_neg (by simp [henable])]
  cases mh with
  | none =>
      by_cases htp : cfg.take_profit_bps ≤ profit_bps entry last <;>
      by_cases hresp : cfg.quartermaster_respect_macd = true <;>
      by_cases hhold : cfg.max_hold_hours ≤ hold <;>
      by_cases hstag : |profit_bps entry last| < cfg.stagnation_close_bps <;>
        simp [htp, hresp, hhold, hstag]
  | some h =>
      by_cases htp : cfg.take_profit_bps ≤ profit_bps entry last <;>
      by_cases hresp : cfg.quartermaster_respect_macd = true <;>
      by_cases hgt : cfg.flat_macd_abs_max < h <;>
      by_cases hhold : cfg.max_hold_hours ≤ hold <;>
      by_cases hstag : |profit_bps entry last| < cfg.stagnation_close_bps <;>
      by_cases hflat : |h| ≤ cfg.flat_macd_abs_max <;>
        simp [htp, hresp, hgt, hhold, hstag, hflat]

/-- Default-flavoured configuration for the spec scenarios D/E:
`takeProfitBps = 600`, momentum-respect on, `flatMacdAbsMax = 0.4`. -/
def cfgD : QmCfg := ⟨true, 600, true, 2/5, 48, 200⟩

theorem claim_C7_quartermaster_witness :
    quartermaster_exit_ok cfgD (213/2) 100 0 (some (1/10)) = (true, "take_profit") ∧
    quartermaster_exit_ok cfgD (213/2) 100 0 (some (9/10)) = (false, "") := by
  constructor
  · refine (claim_C7_quartermaster cfgD (213/2) 100 0 (some (1/10)) rfl).1.mpr ⟨?_, ?_⟩
    · norm_num [profit_bps, cfgD]
    · rintro ⟨-, hh, heq, hgt⟩
      rw [Option.some.injEq] at heq
      subst heq
      norm_num [cfgD] at hgt
  · norm_num [quartermaster_exit_ok, profit_bps, cfgD]

/-- C10: `_profit_bps` returns exactly 0 whenever either price is
non-positive (so the guarded division is never reached on such inputs),
and consequently, for every positive take-profit threshold, the
Quartermaster take-profit branch cannot fire for a position whose
recorded cost basis (entry price) is 0. -/
theorem claim_C10_profit_guard :
    (∀ entry last : ℚ, entry ≤ 0 ∨ last ≤ 0 → profit_bps entry last = 0) ∧
    (∀ (cfg : QmCfg) (last hold : ℚ) (mh : Option ℚ),
      0 < cfg.take_profit_bps →
      (quartermaster_exit_ok cfg last 0 hold mh).2 ≠ "take_profit") := by
  have hz : ∀ last : ℚ, profit_bps 0 last = 0 := by
    intro last
    unfold profit_bps
    rw [if_pos (Or.inl le_rfl)]
  constructor
  · intro entry last h
    unfold profit_bps
    rw [if_pos h]
  · intro cfg last hold mh htp
    unfold quartermaster_exit_ok
    by_cases hen : cfg.enable_quartermaster = false
    · rw [if_pos hen]
      simp
    · rw [if_neg hen]
      simp only [hz last]
      rw [if_neg (not_le.mpr htp)]
      by_cases hhold : cfg.max_hold_hours ≤ hold
      · rw [if_pos hhold]
        by_cases hstag : |(0:ℚ)| < cfg.stagnation_close_bps
        · rw [if_pos hstag]
          cases mh with
          | none => simp
          | some h =>
              by_cases hflat : |h| ≤ cfg.flat_macd_abs_max
              · simp [hflat]
              · simp [hflat]
        · rw [if_neg hstag]
          simp
      · rw [if_neg hhold]
        simp

theorem claim_C10_profit_guard_witness :
    profit_bps 0 100 = 0 ∧
    (quartermaster_exit_ok cfgD 100 0 5 none).2 ≠ "take_profit" :=
  ⟨claim_C10_profit_guard.1 0 100 (Or.inl le_rfl),
    claim_C10_profit_guard.2 cfgD 100 5 none (by norm_num [cfgD])⟩

/-! ## Maker order pricing (`bot/orders.py`) -/

/-- Python `int(q)`: truncation toward zero. -/
def pytrunc (q : ℚ) : ℤ :=
  if q < 0 then ⌈q⌉ else ⌊q⌋

/-- `round_down_to_inc` (orders.py:4-7): `int(value / inc) * inc`, with
non-positive increments passing the value through. -/
def round_down_to_inc (value inc : ℚ) : ℚ :=
  if inc ≤ 0 then value else (pytrunc (value / inc) : ℚ) * inc

/-- `round_up_to_inc` (orders.py:9-16): start from the truncated step,
bump by one step when the candidate is below `value - 1e-12` (the float
tolerance, kept verbatim as `1/10^12`). -/
def round_up_to_inc (value inc : ℚ) : ℚ :=
  if inc ≤ 0 then value
  else
    let steps := pytrunc (value / inc)
    let cand := (steps : ℚ) * inc
    let steps2 := if cand < value - 1/1000000000000 then steps + 1 else steps
    (steps2 : ℚ) * inc

/-- `compute_maker_limit` (orders.py:22-50).  BUY references the best bid
when available (and positive) else the last price, offsets down and
rounds down to the price increment; SELL references the ask, offsets up
and rounds up.  Base size is `usd_per_order / limit_price` floored to the
base increment when the limit price is positive, else 0.  The source
upper-cases `side` on entry; here `side` is taken already upper-cased. -/
def compute_maker_limit (side : String) (last_price price_inc base_inc : ℚ)
    (usd_per_order offset_bps : ℚ) (bid ask : Option ℚ) : ℚ × ℚ :=
  let offset := offset_bps / 10000
  let limit_price :=
    if side = "BUY" then
      let ref := match bid with
        | some b => if 0 < b then b else last_price
        | none => last_price
      round_down_to_inc (ref * (1 - offset)) price_inc
    else
      let ref := match ask with
        | some a => if 0 < a then a else last_price
        | none => last_price
      round_up_to_inc (ref * (1 + offset)) price_inc
  let base_size :=
    if 0 < limit_price
    then round_down_to_inc (max 0 (usd_per_order / limit_price)) base_inc
    else (0 : ℚ)
  (limit_price, base_size)

/-- C8: maker pricing uses bid-else-last for BUY with a downward offset
rounded down, ask-else-last for SELL with an upward offset rounded up;
the base size is `usdPerOrder / limitPrice` rounded down to the base
increment (whenever the limit price is positive and the order notional is
non-negative); and the rounding helpers satisfy
`roundDown(0.0399, 0.01) = 0.03` and `roundUp(0.0301, 0.01) = 0.04`. -/
theorem claim_C8_maker_pricing (last pinc binc usd off b a : ℚ) :
    (0 < b →
      (compute_maker_limit "BUY" last pinc binc usd off (some b) (some a)).1
        = round_down_to_inc (b * (1 - off / 10000)) pinc) ∧
    ((compute_maker_limit "BUY" last pinc binc usd off none (some a)).1
        = round_down_to_inc (last * (1 - off / 10000)) pinc) ∧
    (0 < a →
      (compute_maker_limit "SELL" last pinc binc usd off (some b) (some a)).1
        = round_up_to_inc (a * (1 + off / 10000)) pinc) ∧
    ((compute_maker_limit "SELL" last pinc binc usd off (some b) none).1
        = round_up_to_inc (last * (1 + off / 10000)) pinc) ∧
    (∀ side : String, 0 ≤ usd →
      0 < (compute_maker_limit side last pinc binc usd off (some b) (some a)).1 →
      (compute_maker_limit side last pinc binc usd off (some b) (some a)).2
        = round_down_to_inc
            (usd / (compute_maker_limit side last pinc binc usd off (some b) (some a)).1)
            binc) ∧
    round_down_to_inc (399/10000) (1/100) = 3/100 ∧
    round_up_to_inc (301/10000) (1/100) = 4/100 := by
  refine ⟨?_, ?_, ?_, ?_, ?_, ?_, ?_⟩
  · intro hb
    simp [compute_maker_limit, hb]
  · simp [compute_maker_limit]
  · intro ha
    simp [compute_maker_limit, ha]
  · simp [compute_maker_limit]
  · intro side husd hpos
    have h2 : (compute_maker_limit side last pinc binc usd off (some b) (some a)).2
        = (if 0 < (compute_maker_limit side last pinc binc usd off (some b) (some a)).1
           then round_down_to_inc
             (max 0 (usd / (compute_maker_limit side last pinc binc usd off (some b) (some a)).1))
             binc
           else 0) := rfl
    rw [h2, if_pos hpos, max_eq_right (div_nonneg husd (le_of_lt hpos))]
  · have h1 : ((399:ℚ)/10000) / (1/100) = 399/100 := by norm_num
    have h2 : pytrunc ((399:ℚ)/100) = 3 := by
      unfold pytrunc
      rw [if_neg (by norm_num)]
      norm_num
    norm_num [round_down_to_inc, h1, h2]
  · have h1 : ((301:ℚ)/10000) / (1/100) = 301/100 := by norm_num
    have h2 : pytrunc ((301:ℚ)/100) = 3 := by
      unfold pytrunc
      rw [if_neg (by norm_num)]
      norm_num
    norm_num [round_up_to_inc, h1, h2]

theorem claim_C8_maker_pricing_witness :
    (compute_maker_limit "BUY" 100 (1/100) (1/100) 50 10 (some 100) (some 101)).1
      = round_down_to_inc (100 * (1 - 10 / 10000)) (1/100) ∧
    (compute_maker_limit "SELL" 100 (1/100) (1/100) 50 10 (some 100) (some 101)).1
      = round_up_to_inc (101 * (1 + 10 / 10000)) (1/100) ∧
    (compute_maker_limit "BUY" 100 (1/100) (1/100) 50 10 (some 100) (some 101)).2
      = round_down_to_inc
          (50 / (compute_maker_limit "BUY" 100 (1/100) (1/100) 50 10 (some 100) (some 101)).1)
          (1/100) ∧
    round_down_to_inc (399/10000) (1/100) = 3/100 ∧
    round_up_to_inc (301/10000) (1/100) = 4/100 := by
  have h := claim_C8_maker_pricing 100 (1/100) (1/100) 50 10 100 101
  have hpos : 0 < (compute_maker_limit "BUY" 100 (1/100) (1/100) 50 10
      (some 100) (some 101)).1 := by
    rw [h.1 (by norm_num)]
    norm_num [round_down_to_inc, pytrunc]
  exact ⟨h.1 (by norm_num), h.2.2.1 (by norm_num),
    h.2.2.2.2.1 "BUY" (by norm_num) hpos, h.2.2.2.2.2.1, h.2.2.2.2.2.2⟩

end Tradebot
